import Mathlib

/-!
# Gradient-boosted-tree inference engine: verification of the spec's claims

The repository's algorithmic core is a gradient-boosted-tree inference
engine: a parser for the XGBoost textual tree dump, a per-tree evaluator,
an ensemble aggregator, and the task-specific output transforms (identity,
logistic, softmax).  The notebook under `src/` contains the worked tree
dump for the diabetes regression example, the generated C `score` function
for that model, and the documented reference predictions; the generic C++
engine itself lives in a `gbt_inference` folder that is not part of the
sources given here, so those components are modelled from the spec below
(each such definition says so in its doc comment).

Numbers are modelled as exact rationals (`ℚ`) where the code computes with
machine floats; real-valued transforms (logistic, softmax) use `ℝ`.
-/

namespace Gbt

/-- Modelled from the spec: the error taxonomy of §7 (the `gbt_inference`
C++ error types are not under `src/`). -/
inductive Err where
  | malformedModel
  | featureIndexOutOfRange
  | unsupportedTaskType
deriving DecidableEq, Repr

/-- Modelled from the spec: one decision point or leaf of a tree (§3,
"Node"); the `gbt_inference` C++ node type is not under `src/`.  An
internal node carries the feature index, the split threshold and the
`yes`/`no`/`missing` child ids of the dump grammar. -/
inductive Node where
  | internal (featureIndex : Nat) (threshold : ℚ) (yes no miss : Nat)
  | leaf (value : ℚ)
deriving DecidableEq, Repr

/-- A tree is an id-indexed flat arena of nodes (spec §3 and §9), rooted at
id 0, kept as an association list in dump order. -/
abbrev Tree := List (Nat × Node)

/-- The node ids present in a tree. -/
def keys (t : Tree) : List Nat := t.map (fun p => p.1)

/-- Look a node up by id (first match in the arena). -/
def findNode : Tree → Nat → Option Node
  | [], _ => none
  | (j, nd) :: rest, i => if j = i then some nd else findNode rest i

/-- The child ids an internal node references; a leaf references none. -/
def nodeChildren : Node → List Nat
  | .internal _ _ y n m => [y, n, m]
  | .leaf _ => []

/-- The feature indices referenced by the internal nodes of a tree. -/
def refFeatures (t : Tree) : List Nat :=
  t.filterMap (fun p =>
    match p.2 with
    | .internal f _ _ _ _ => some f
    | .leaf _ => none)

/-- A feature vector: ordered slots, `none` being the explicit missing
sentinel the spec's §9 asks for. -/
abbrev Features := List (Option ℚ)

/-- Does the vector's length cover every feature index the tree references? -/
def covers (x : Features) (t : Tree) : Bool :=
  (refFeatures t).all (fun f => decide (f < x.length))

/-- Modelled from the spec: the branch choice of §4.2 at an internal node
(the `gbt_inference` C++ evaluator is not under `src/`).  Missing value →
`miss` child; value strictly below the threshold → `yes` child; otherwise
(ties included) → `no` child.  `none` means the feature index is out of
range. -/
def nextChild (x : Features) (f : Nat) (thr : ℚ) (y n m : Nat) : Option Nat :=
  match x[f]? with
  | none => none
  | some none => some m
  | some (some v) => some (if v < thr then y else n)

/-- Modelled from the spec: the root-to-leaf traversal of §4.2, fuelled, and
instrumented to return the list of visited node ids together with the leaf
value.  A dangling node id (or exhausted fuel, impossible on well-formed
trees with fuel at least the node count) is a structural fault. -/
def evalFrom (t : Tree) (x : Features) : Nat → Nat → Except Err (List Nat × ℚ)
  | 0, _ => .error .malformedModel
  | fuel + 1, i =>
    match findNode t i with
    | none => .error .malformedModel
    | some (.leaf v) => .ok ([i], v)
    | some (.internal f thr y n m) =>
      match nextChild x f thr y n m with
      | none => .error .featureIndexOutOfRange
      | some c => (evalFrom t x fuel c).map (fun pv => (i :: pv.1, pv.2))

/-- The instrumented traversal from the root, with fuel equal to the node
count (enough for any well-formed tree, as proved below). -/
def evalTrace (t : Tree) (x : Features) : Except Err (List Nat × ℚ) :=
  evalFrom t x t.length 0

/-- Modelled from the spec: `evaluate(tree, features)` of §4.2 (the
`gbt_inference` C++ evaluator is not under `src/`).  Per the contract, a
vector that does not cover every referenced feature index fails with
`FeatureIndexOutOfRangeError`; otherwise the traversal runs. -/
def evaluate (t : Tree) (x : Features) : Except Err ℚ :=
  if covers x t then (evalTrace t x).map (fun pv => pv.2)
  else .error .featureIndexOutOfRange

/-- Fuelled depth of the subtree below a node id: 0 at a leaf, one more
than the deeper of the two real children at an internal node. -/
def depthF (t : Tree) : Nat → Nat → Nat
  | 0, _ => 0
  | fuel + 1, i =>
    match findNode t i with
    | some (.internal _ _ y n _) => 1 + max (depthF t fuel y) (depthF t fuel n)
    | _ => 0

/-- Depth of a tree: longest root-to-leaf edge count. -/
def depth (t : Tree) : Nat := depthF t t.length 0

/-- Every internal node's child ids resolve to nodes present in the same
tree (spec §3 invariant). -/
def childrenResolve (t : Tree) : Prop :=
  ∀ p ∈ t, ∀ c ∈ nodeChildren p.2, c ∈ keys t

/-- The missing child is one of the two real children (spec §3 invariant). -/
def missOk (t : Tree) : Bool :=
  t.all (fun p =>
    match p.2 with
    | .internal _ _ y n m => m == y || m == n
    | .leaf _ => true)

/-- Acyclicity of the node arena, embedded as the existence of a rank
function that strictly decreases along every parent→child edge; for a
finite arena with distinct ids such a rank exists (bounded by the node
count, e.g. the longest-path length from each node) exactly when the child
graph has no cycle. -/
def Acyclic (t : Tree) : Prop :=
  ∃ r : Nat → Nat,
    (∀ p ∈ t, ∀ c ∈ nodeChildren p.2, r c < r p.1) ∧
    (∀ i ∈ keys t, r i < t.length)

/-- A well-formed tree per §3: unique node ids, a root with id 0, resolving
child references, a missing child that is one of the real children, and no
cycles. -/
def TreeWF (t : Tree) : Prop :=
  (keys t).Nodup ∧ 0 ∈ keys t ∧ childrenResolve t ∧ missOk t = true ∧ Acyclic t

/-- The exact root-to-leaf path the §4.2 traversal follows on a given
vector: starts at the given id, steps along `nextChild`, ends at a leaf. -/
inductive IsEvalPath (t : Tree) (x : Features) : Nat → List Nat → Prop where
  | leaf {i v} : findNode t i = some (.leaf v) → IsEvalPath t x i [i]
  | step {i f thr y n m c p} :
      findNode t i = some (.internal f thr y n m) →
      nextChild x f thr y n m = some c →
      IsEvalPath t x c p →
      IsEvalPath t x i (i :: p)

/-- Modelled from the spec: the closed task-type variant of §3 and §9 (the
`gbt_inference` C++ task enum is not under `src/`). -/
inductive TaskType where
  | regression
  | binaryClassification
  | multiclassClassification
deriving DecidableEq, Repr

/-- Modelled from the spec: the per-task class count of §4.4 — one output
class for regression and binary classification, the declared class count
for multiclass. -/
def TaskType.numClassesOf : TaskType → Nat → Nat
  | .regression, _ => 1
  | .binaryClassification, _ => 1
  | .multiclassClassification, k => k

/-- Modelled from the spec: the parsed ensemble of §3 — an ordered tree
sequence, a task type with its declared class count, and the externally
supplied base-score offset of §4.3. -/
structure Ensemble where
  taskType : TaskType
  classCount : Nat
  baseScore : ℚ
  trees : List Tree
deriving DecidableEq, Repr

/-- The derived `num_classes` value of an ensemble (spec §3). -/
def Ensemble.numClasses (e : Ensemble) : Nat :=
  e.taskType.numClassesOf e.classCount

/-- Modelled from the spec: ensemble construction from the boosting rounds,
each round contributing one tree per class, flattened in file order (§3 and
the dump's booster/tree-count description). -/
def mkEnsemble (tt : TaskType) (k : Nat) (b : ℚ) (rounds : List (List Tree)) :
    Ensemble :=
  ⟨tt, k, b, rounds.flatten⟩

/-- Evaluate every tree of a list on the same vector, failing on the first
per-tree failure. -/
def evalAll : List Tree → Features → Except Err (List ℚ)
  | [], _ => .ok []
  | t :: ts, x =>
    match evaluate t x, evalAll ts x with
    | .ok v, .ok vs => .ok (v :: vs)
    | .error e, _ => .error e
    | .ok _, .error e => .error e

/-- Add a value into one slot of the accumulator array (out-of-range slots
are impossible for in-range class indices and leave the array unchanged). -/
def addAt (acc : List ℚ) (c : Nat) (v : ℚ) : List ℚ :=
  acc.set c (acc.getD c 0 + v)

/-- Modelled from the spec: the accumulation loop of §4.3 — start from
`num_classes` copies of the base score, then add the tree at flattened
index `i` into accumulator slot `i mod num_classes`, in ensemble order. -/
def accumulate (vals : List ℚ) (numClasses : Nat) (b : ℚ) : List ℚ :=
  vals.enum.foldl (fun acc p => addAt acc (p.1 % numClasses) p.2)
    (List.replicate numClasses b)

/-- Modelled from the spec: `aggregate(ensemble, features)` of §4.3 (the
`gbt_inference` C++ aggregator is not under `src/`). -/
def aggregate (e : Ensemble) (x : Features) : Except Err (List ℚ) :=
  (evalAll e.trees x).map (fun vals => accumulate vals e.numClasses e.baseScore)

/-- Modelled from the spec: the logistic transform of §4.4,
`1 / (1 + exp(-s))`. -/
noncomputable def logistic (s : ℝ) : ℝ := 1 / (1 + Real.exp (-s))

/-- Maximum of a list of reals (0 on the empty list, which the transforms
never pass). -/
noncomputable def listMax : List ℝ → ℝ
  | [] => 0
  | a :: as => as.foldl max a

/-- Modelled from the spec: the softmax of §4.4 in max-subtraction form,
`exp(s_c - max) / Σ_k exp(s_k - max)`. -/
noncomputable def softmax (scores : List ℝ) : List ℝ :=
  scores.map (fun s =>
    Real.exp (s - listMax scores) /
      (scores.map (fun u => Real.exp (u - listMax scores))).sum)

/-- Modelled from the spec: the output transform of §4.4 — identity on the
first raw score for regression, logistic for binary classification, softmax
for multiclass. -/
noncomputable def transform : TaskType → List ℚ → List ℝ
  | .regression, raw => [((raw.headD 0 : ℚ) : ℝ)]
  | .binaryClassification, raw => [logistic ((raw.headD 0 : ℚ) : ℝ)]
  | .multiclassClassification, raw => softmax (raw.map (fun q => (q : ℝ)))

/-- Modelled from the spec: the inference facade of §4.5,
`predict = transform ∘ aggregate`. -/
noncomputable def predict (e : Ensemble) (x : Features) : Except Err (List ℝ) :=
  (aggregate e x).map (transform e.taskType)

/-- Modelled from the spec: one decoded line of the §6 dump grammar (the
`gbt_inference` C++ parser is not under `src/`; the textual decoding of a
single line is abstracted into this variant, `bad` standing for a line that
decodes to neither an internal-node nor a leaf form). -/
inductive DumpLine where
  | header (n : Nat)
  | internalNode (id : Nat) (featureIndex : Nat) (threshold : ℚ)
      (yes no miss : Nat)
  | leafNode (id : Nat) (value : ℚ)
  | bad
deriving DecidableEq, Repr

/-- Modelled from the spec: the block-splitting pass of §4.1 — split the
line stream into per-tree blocks on booster-header lines, collecting each
block's node lines into a tree; a node line before any header (a missing
booster header) or an undecodable line is malformed. -/
def parseGo : List Tree → Option Tree → List DumpLine → Except Err (List Tree)
  | acc, cur, [] => .ok (acc ++ cur.toList)
  | acc, cur, .header _ :: rest => parseGo (acc ++ cur.toList) (some []) rest
  | _, none, .internalNode _ _ _ _ _ _ :: _ => .error .malformedModel
  | acc, some t, .internalNode i f thr y n m :: rest =>
    parseGo acc (some (t ++ [(i, .internal f thr y n m)])) rest
  | _, none, .leafNode _ _ :: _ => .error .malformedModel
  | acc, some t, .leafNode i v :: rest =>
    parseGo acc (some (t ++ [(i, .leaf v)])) rest
  | _, _, .bad :: _ => .error .malformedModel

/-- Structural validation of §4.1: every internal node's child ids are
defined in the same tree. -/
def treeResolves (t : Tree) : Bool :=
  t.all (fun p => (nodeChildren p.2).all (fun c => (keys t).contains c))

/-- Modelled from the spec: `parse(text) -> Ensemble`'s tree-building core
(§4.1) over the decoded line stream — assemble the blocks, then validate
child resolution, failing atomically with `MalformedModelError`. -/
def parse (ls : List DumpLine) : Except Err (List Tree) :=
  match parseGo [] none ls with
  | .error e => .error e
  | .ok ts => if ts.all treeResolves then .ok ts else .error .malformedModel

/-! ## The worked regression example of the notebook

`demoTree0` and `demoTree1` transcribe the `booster[0]`/`booster[1]` dump
printed in the notebook (diabetes regression, features age, sex, bmi, bp at
indices 0–3), node for node in dump order. -/

/-- `booster[0]` of the notebook's regression dump. -/
def demoTree0 : Tree :=
  [ (0, .internal 2 0.00942232087 1 2 1),
    (1, .internal 2 (-0.0218342301) 3 4 3),
    (3, .internal 2 (-0.0584798381) 7 8 7),
    (7, .leaf 25.84091),
    (8, .leaf 33.0292702),
    (4, .internal 3 0.0270366594 9 10 9),
    (9, .leaf 38.7487526),
    (10, .leaf 51.0882378),
    (2, .internal 3 0.0235937908 5 6 5),
    (5, .leaf 53.0696678),
    (6, .leaf 69.4000015) ]

/-- `booster[1]` of the notebook's regression dump. -/
def demoTree1 : Tree :=
  [ (0, .internal 2 0.00511107268 1 2 1),
    (1, .internal 3 0.0390867069 3 4 3),
    (3, .internal 2 (-0.0207564179) 7 8 7),
    (7, .leaf 21.0474758),
    (8, .leaf 27.7326946),
    (4, .internal 2 0.000799824367 9 10 9),
    (9, .leaf 36.1850548),
    (10, .leaf 14.9188232),
    (2, .internal 2 0.0730132312 5 6 5),
    (5, .internal 3 0.0000675072661 11 12 11),
    (11, .leaf 31.3889732),
    (12, .leaf 43.4056664),
    (6, .internal 3 (-0.0498541184) 13 14 13),
    (13, .leaf 13.0395498),
    (14, .leaf 59.377037) ]

/-- The notebook's regression ensemble: two boosting rounds, one class,
`base_score = 0.0` (the `XGBRegressor` parameters of the notebook). -/
def demoEnsemble : Ensemble := ⟨.regression, 1, 0, [demoTree0, demoTree1]⟩

/-- The first diabetes row of the notebook, the documented reference input:
age 0.038, sex 0.051, bmi 0.062, bp 0.022. -/
def demoX : Features := [some 0.038, some 0.051, some 0.062, some 0.022]

/-- The same input as a plain array for the generated C function. -/
def demoInput : Nat → ℚ := fun i =>
  ([0.038, 0.051, 0.062, 0.022] : List ℚ).getD i 0

/-- The m2cgen-generated C `score` function printed in the notebook for the
regression model, transcribed branch for branch (literals as printed by
m2cgen, arithmetic exact). -/
def score (input : Nat → ℚ) : ℚ :=
  let var0 : ℚ :=
    if input 2 ≥ 0.009422321 then
      (if input 3 ≥ 0.02359379 then 69.4 else 53.069668)
    else
      (if input 2 ≥ -0.02183423 then
        (if input 3 ≥ 0.02703666 then 51.088238 else 38.748753)
      else
        (if input 2 ≥ -0.058479838 then 33.02927 else 25.84091))
  let var1 : ℚ :=
    if input 2 ≥ 0.0051110727 then
      (if input 2 ≥ 0.07301323 then
        (if input 3 ≥ -0.04985412 then 59.377037 else 13.03955)
      else
        (if input 3 ≥ 0.000067507266 then 43.405666 else 31.388973))
    else
      (if input 3 ≥ 0.039086707 then
        (if input 2 ≥ 0.00079982437 then 14.918823 else 36.185055)
      else
        (if input 2 ≥ -0.020756418 then 27.732695 else 21.047476))
  var0 + var1

/-- A line stream whose single tree block contains an internal node whose
child ids 1 and 2 are defined nowhere in the block. -/
def demoBadLines : List DumpLine :=
  [.header 0, .internalNode 0 0 1 1 2 1]

/-! ## Lemmas about the tree arena and the traversal -/

theorem findNode_mem {t : Tree} {i : Nat} {nd : Node}
    (h : findNode t i = some nd) : (i, nd) ∈ t := by
  induction t with
  | nil => simp [findNode] at h
  | cons p rest ih =>
    obtain ⟨j, nd'⟩ := p
    by_cases hji : j = i
    · subst hji
      simp [findNode] at h
      subst h
      exact List.mem_cons_self _ _
    · simp [findNode, hji] at h
      exact List.mem_cons_of_mem _ (ih h)

theorem mem_keys_findNode {t : Tree} {i : Nat} (h : i ∈ keys t) :
    ∃ nd, findNode t i = some nd := by
  induction t with
  | nil => simp [keys] at h
  | cons p rest ih =>
    obtain ⟨j, nd'⟩ := p
    by_cases hji : j = i
    · exact ⟨nd', by simp [findNode, hji]⟩
    · simp [keys] at h
      rcases h with h | h
      · exact absurd h.symm hji
      · obtain ⟨nd, hnd⟩ := ih (by simpa [keys] using h)
        exact ⟨nd, by simpa [findNode, hji] using hnd⟩

theorem refFeatures_mem {t : Tree} {i f : Nat} {thr : ℚ} {y n m : Nat}
    (h : (i, Node.internal f thr y n m) ∈ t) : f ∈ refFeatures t := by
  unfold refFeatures
  rw [List.mem_filterMap]
  exact ⟨(i, .internal f thr y n m), h, rfl⟩

theorem covers_lt {x : Features} {t : Tree} (hc : covers x t = true)
    {i f : Nat} {thr : ℚ} {y n m : Nat}
    (h : (i, Node.internal f thr y n m) ∈ t) : f < x.length := by
  unfold covers at hc
  have := List.all_eq_true.mp hc f (refFeatures_mem h)
  simpa using this

theorem nextChild_mem {x : Features} {f : Nat} (thr : ℚ) (y n m : Nat)
    (hf : f < x.length) :
    ∃ c, nextChild x f thr y n m = some c ∧ (c = y ∨ c = n ∨ c = m) := by
  unfold nextChild
  rw [List.getElem?_eq_getElem hf]
  cases hv : x[f] with
  | none => exact ⟨m, rfl, Or.inr (Or.inr rfl)⟩
  | some v =>
    by_cases hlt : v < thr
    · exact ⟨y, by simp [hlt], Or.inl rfl⟩
    · exact ⟨n, by simp [hlt], Or.inr (Or.inl rfl)⟩

theorem evalFrom_ok {t : Tree} {x : Features}
    (hres : childrenResolve t) (hmiss : missOk t = true)
    (hcov : covers x t = true) {r : Nat → Nat}
    (hr : ∀ p ∈ t, ∀ c ∈ nodeChildren p.2, r c < r p.1) :
    ∀ fuel i, i ∈ keys t → r i < fuel →
      ∃ p v, evalFrom t x fuel i = .ok (p, v) ∧ IsEvalPath t x i p ∧
        (∀ j ∈ p, j ∈ keys t ∧ r j ≤ r i) ∧ p.Nodup ∧
        p.length ≤ depthF t fuel i + 1 := by
  intro fuel
  induction fuel with
  | zero => exact fun i _ h => absurd h (Nat.not_lt_zero _)
  | succ fuel ih =>
    intro i hik hri
    obtain ⟨nd, hnd⟩ := mem_keys_findNode hik
    have hmem : (i, nd) ∈ t := findNode_mem hnd
    cases nd with
    | leaf v =>
      refine ⟨[i], v, by simp [evalFrom, hnd], IsEvalPath.leaf hnd, ?_, by simp, ?_⟩
      · intro j hj
        simp at hj
        subst hj
        exact ⟨hik, le_rfl⟩
      · simp
    | internal f thr y n m =>
      have hflt : f < x.length := covers_lt hcov hmem
      obtain ⟨c, hc, hcyn⟩ := nextChild_mem thr y n m (x := x) hflt
      have hcchild : c ∈ nodeChildren (Node.internal f thr y n m) := by
        rcases hcyn with h | h | h <;> simp [nodeChildren, h]
      have hck : c ∈ keys t := hres _ hmem c hcchild
      have hrc : r c < r i := hr _ hmem c hcchild
      obtain ⟨p, v, hev, hpath, hmemr, hnodup, hlen⟩ :=
        ih c hck (by omega)
      have hmyn : m = y ∨ m = n := by
        have := List.all_eq_true.mp hmiss _ hmem
        simpa using this
      refine ⟨i :: p, v, ?_, IsEvalPath.step hnd hc hpath, ?_, ?_, ?_⟩
      · simp [evalFrom, hnd, hc, hev, Except.map]
      · intro j hj
        rcases List.mem_cons.mp hj with h | h
        · subst h
          exact ⟨hik, le_rfl⟩
        · exact ⟨(hmemr j h).1, le_trans (hmemr j h).2 (le_of_lt hrc)⟩
      · refine List.nodup_cons.mpr ⟨fun hip => ?_, hnodup⟩
        have := (hmemr i hip).2
        omega
      · have hdi : depthF t (fuel + 1) i =
            1 + max (depthF t fuel y) (depthF t fuel n) := by
          simp [depthF, hnd]
        have hcle : depthF t fuel c ≤ max (depthF t fuel y) (depthF t fuel n) := by
          rcases hcyn with h | h | h
          · subst h; exact le_max_left _ _
          · subst h; exact le_max_right _ _
          · subst h
            rcases hmyn with h | h
            · rw [h]; exact le_max_left _ _
            · rw [h]; exact le_max_right _ _
        simp only [List.length_cons]
        omega

theorem evalTrace_ok {t : Tree} {x : Features} (hWF : TreeWF t)
    (hcov : covers x t = true) :
    ∃ p v, evalTrace t x = .ok (p, v) ∧ IsEvalPath t x 0 p ∧ p.Nodup ∧
      p.length ≤ depth t + 1 := by
  obtain ⟨-, hroot, hres, hmiss, r, hr, hbound⟩ := hWF
  obtain ⟨p, v, hev, hpath, -, hnodup, hlen⟩ :=
    evalFrom_ok hres hmiss hcov hr t.length 0 hroot (hbound 0 hroot)
  exact ⟨p, v, hev, hpath, hnodup, hlen⟩

/-! ## Lemmas about the aggregation loop -/

theorem addAt_length (acc : List ℚ) (c : Nat) (v : ℚ) :
    (addAt acc c v).length = acc.length := List.length_set acc c _

theorem getD_addAt (acc : List ℚ) {c : Nat} (hc : c < acc.length)
    (k : Nat) (v : ℚ) :
    (addAt acc k v).getD c 0 =
      if k = c then acc.getD c 0 + v else acc.getD c 0 := by
  unfold addAt
  rw [List.getD_eq_getElem?_getD, List.getElem?_set]
  by_cases hkc : k = c
  · subst hkc
    simp [hc, List.getD_eq_getElem?_getD]
  · simp [hkc, List.getD_eq_getElem?_getD]

theorem foldl_addAt_length (C : Nat) :
    ∀ (ps : List (Nat × ℚ)) (acc : List ℚ),
      (ps.foldl (fun a p => addAt a (p.1 % C) p.2) acc).length = acc.length := by
  intro ps
  induction ps with
  | nil => intro acc; rfl
  | cons q qs ih =>
    intro acc
    rw [List.foldl_cons, ih, addAt_length]

theorem foldl_addAt_getD {C : Nat} (_hC : 0 < C) :
    ∀ (ps : List (Nat × ℚ)) (acc : List ℚ), acc.length = C → ∀ c, c < C →
      (ps.foldl (fun a p => addAt a (p.1 % C) p.2) acc).getD c 0 =
        acc.getD c 0 +
          ((ps.filter (fun p => p.1 % C == c)).map (fun p => p.2)).sum := by
  intro ps
  induction ps with
  | nil => intro acc _ c _; simp
  | cons q qs ih =>
    intro acc hlen c hc
    rw [List.foldl_cons, ih _ (by rw [addAt_length, hlen]) c hc,
      getD_addAt _ (by omega), List.filter_cons]
    by_cases h : q.1 % C = c
    · simp only [h, if_pos rfl, beq_self_eq_true, if_pos, List.map_cons,
        List.sum_cons]
      ring
    · simp only [h, if_neg h]
      have hb : (q.1 % C == c) = false := by simp [h]
      rw [hb]
      simp

theorem accumulate_length (vals : List ℚ) (C : Nat) (b : ℚ) :
    (accumulate vals C b).length = C := by
  unfold accumulate
  rw [foldl_addAt_length, List.length_replicate]

theorem accumulate_getD (vals : List ℚ) {C : Nat} (hC : 0 < C) (b : ℚ)
    {c : Nat} (hc : c < C) :
    (accumulate vals C b).getD c 0 =
      b + ((vals.enum.filter (fun p => p.1 % C == c)).map (fun p => p.2)).sum := by
  unfold accumulate
  rw [foldl_addAt_getD hC _ _ (List.length_replicate C b) c hc]
  congr 1
  rw [List.getD_eq_getElem?_getD, List.getElem?_replicate]
  simp [hc]

theorem accumulate_one (vals : List ℚ) (b : ℚ) :
    accumulate vals 1 b = [b + vals.sum] := by
  obtain ⟨a, ha⟩ := List.length_eq_one.mp (accumulate_length vals 1 b)
  have h := accumulate_getD vals Nat.one_pos b (c := 0) Nat.one_pos
  rw [ha] at h
  simp only [List.getD_cons_zero] at h
  have hfil : vals.enum.filter (fun p => p.1 % 1 == 0) = vals.enum :=
    List.filter_eq_self.mpr (by intro p _; simp [Nat.mod_one])
  rw [hfil] at h
  have hmap : vals.enum.map (fun p => p.2) = vals := List.enum_map_snd vals
  rw [hmap] at h
  rw [ha, h]

/-! ## Lemmas about the parser -/

theorem parseGo_error :
    ∀ (ls : List DumpLine) (acc : List Tree) (cur : Option Tree) (e : Err),
      parseGo acc cur ls = .error e → e = .malformedModel := by
  intro ls
  induction ls with
  | nil => intro acc cur e h; simp [parseGo] at h
  | cons l rest ih =>
    intro acc cur e h
    cases l with
    | header nn =>
      rw [parseGo] at h
      exact ih _ _ _ h
    | internalNode i f thr y n m =>
      cases cur with
      | none => simp [parseGo] at h; exact h.symm
      | some tcur => rw [parseGo] at h; exact ih _ _ _ h
    | leafNode i v =>
      cases cur with
      | none => simp [parseGo] at h; exact h.symm
      | some tcur => rw [parseGo] at h; exact ih _ _ _ h
    | bad =>
      cases cur with
      | none => simp [parseGo] at h; exact h.symm
      | some tcur => simp [parseGo] at h; exact h.symm

/-! ## Claim theorems -/

/-- C1: for the two-tree regression ensemble of the notebook's worked dump,
predicting on the feature vector with bmi = 0.062 and bp = 0.022 (feature
order age, sex, bmi, bp) returns 96.475334 within float32 tolerance: tree 0
reaches leaf 53.0696678, tree 1 reaches leaf 43.4056664, their sum is the
output, and the generated C `score` function returns exactly the documented
reference prediction 96.475334. -/
theorem regression_worked_example :
    evaluate demoTree0 demoX = .ok 53.0696678 ∧
    evaluate demoTree1 demoX = .ok 43.4056664 ∧
    aggregate demoEnsemble demoX = .ok [53.0696678 + 43.4056664] ∧
    |((53.0696678 : ℚ) + 43.4056664) - 96.475334| < 1 / 100000 ∧
    score demoInput = 96.475334 := by
  refine ⟨?_, ?_, ?_, ?_, ?_⟩
  · norm_num [evaluate, evalTrace, evalFrom, covers, refFeatures, findNode,
      nextChild, demoTree0, demoX, Except.map]
  · norm_num [evaluate, evalTrace, evalFrom, covers, refFeatures, findNode,
      nextChild, demoTree1, demoX, Except.map]
  · norm_num [aggregate, evalAll, evaluate, evalTrace, evalFrom, covers,
      refFeatures, findNode, nextChild, demoTree0, demoTree1, demoEnsemble,
      demoX, Except.map, accumulate, addAt, Ensemble.numClasses,
      TaskType.numClassesOf, List.enum]
  · rw [abs_lt]
    constructor <;> norm_num
  · norm_num [score, demoInput]

/-- C2: at an internal node the evaluator follows `missing_child_id` when
the feature value is the missing sentinel, `yes_child_id` when the value is
strictly less than the threshold, and `no_child_id` otherwise — in
particular a value exactly equal to the threshold goes to the no branch. -/
theorem evaluator_branch_semantics (t : Tree) (x : Features) (fuel i f : Nat)
    (thr : ℚ) (y n m : Nat)
    (hnd : findNode t i = some (.internal f thr y n m)) :
    (x[f]? = some none →
      evalFrom t x (fuel + 1) i =
        (evalFrom t x fuel m).map (fun pv => (i :: pv.1, pv.2))) ∧
    (∀ v, x[f]? = some (some v) → v < thr →
      evalFrom t x (fuel + 1) i =
        (evalFrom t x fuel y).map (fun pv => (i :: pv.1, pv.2))) ∧
    (∀ v, x[f]? = some (some v) → ¬ v < thr →
      evalFrom t x (fuel + 1) i =
        (evalFrom t x fuel n).map (fun pv => (i :: pv.1, pv.2))) ∧
    (x[f]? = some (some thr) →
      evalFrom t x (fuel + 1) i =
        (evalFrom t x fuel n).map (fun pv => (i :: pv.1, pv.2))) := by
  refine ⟨?_, ?_, ?_, ?_⟩
  · intro hm
    simp [evalFrom, hnd, nextChild, hm]
  · intro v hv hlt
    simp [evalFrom, hnd, nextChild, hv, hlt]
  · intro v hv hge
    simp [evalFrom, hnd, nextChild, hv, hge]
  · intro hv
    simp [evalFrom, hnd, nextChild, hv, lt_irrefl]

/-- A vector whose bmi slot (index 2) is the missing sentinel. -/
def demoXMiss : Features := [some 1, some 1, none, some 1]

/-- A vector whose bmi slot is strictly below the root threshold. -/
def demoXYes : Features := [some 0, some 0, some 0, some 0]

/-- A vector whose bmi slot is above the root threshold. -/
def demoXNo : Features := [some 0, some 0, some 1, some 0]

/-- A vector whose bmi slot equals the root threshold exactly. -/
def demoXTie : Features := [some 0, some 0, some 0.00942232087, some 0]

theorem evaluator_branch_semantics_witness :
    evalFrom demoTree0 demoXMiss (5 + 1) 0 =
      (evalFrom demoTree0 demoXMiss 5 1).map (fun pv => (0 :: pv.1, pv.2)) ∧
    evalFrom demoTree0 demoXYes (5 + 1) 0 =
      (evalFrom demoTree0 demoXYes 5 1).map (fun pv => (0 :: pv.1, pv.2)) ∧
    evalFrom demoTree0 demoXNo (5 + 1) 0 =
      (evalFrom demoTree0 demoXNo 5 2).map (fun pv => (0 :: pv.1, pv.2)) ∧
    evalFrom demoTree0 demoXTie (5 + 1) 0 =
      (evalFrom demoTree0 demoXTie 5 2).map (fun pv => (0 :: pv.1, pv.2)) :=
  ⟨(evaluator_branch_semantics demoTree0 demoXMiss 5 0 2 0.00942232087
      1 2 1 rfl).1 rfl,
   (evaluator_branch_semantics demoTree0 demoXYes 5 0 2 0.00942232087
      1 2 1 rfl).2.1 0 rfl (by norm_num),
   (evaluator_branch_semantics demoTree0 demoXNo 5 0 2 0.00942232087
      1 2 1 rfl).2.2.1 1 rfl (by norm_num),
   (evaluator_branch_semantics demoTree0 demoXTie 5 0 2 0.00942232087
      1 2 1 rfl).2.2.2 rfl⟩

/-- C3: for a Regression ensemble whose trees all evaluate, `num_classes`
is 1, aggregation returns the base-score offset plus the arithmetic sum of
all per-tree leaf values (each tree lands in accumulator slot
`i mod num_classes = 0`), and the Regression transform returns
`raw_scores[0]` unchanged, so `predict` is exactly that sum. -/
theorem regression_predict_is_sum (e : Ensemble) (x : Features)
    (vals : List ℚ) (hreg : e.taskType = .regression)
    (hvals : evalAll e.trees x = .ok vals) :
    e.numClasses = 1 ∧
    aggregate e x = .ok [e.baseScore + vals.sum] ∧
    predict e x = .ok [((e.baseScore + vals.sum : ℚ) : ℝ)] := by
  have hnc : e.numClasses = 1 := by
    unfold Ensemble.numClasses
    rw [hreg, TaskType.numClassesOf]
  have hagg : aggregate e x = .ok [e.baseScore + vals.sum] := by
    unfold aggregate
    rw [hvals, hnc]
    simp [Except.map, accumulate_one]
  refine ⟨hnc, hagg, ?_⟩
  unfold predict
  rw [hagg]
  simp [Except.map, hreg, transform]

theorem regression_predict_is_sum_witness :
    demoEnsemble.numClasses = 1 ∧
    aggregate demoEnsemble demoX =
      .ok [demoEnsemble.baseScore + ([53.0696678, 43.4056664] : List ℚ).sum] ∧
    predict demoEnsemble demoX =
      .ok [((demoEnsemble.baseScore + ([53.0696678, 43.4056664] : List ℚ).sum : ℚ) : ℝ)] :=
  regression_predict_is_sum demoEnsemble demoX [53.0696678, 43.4056664] rfl
    (by norm_num [evalAll, evaluate, evalTrace, evalFrom, covers, refFeatures,
      findNode, nextChild, demoTree0, demoTree1, demoEnsemble, demoX,
      Except.map])

/-- C10: the generated regression `score` function depends only on feature
indices 2 (bmi) and 3 (bp): any two input arrays agreeing there produce the
same output, whatever the other slots hold. -/
theorem score_depends_only_on_bmi_bp (a b : Nat → ℚ)
    (h2 : a 2 = b 2) (h3 : a 3 = b 3) : score a = score b := by
  unfold score
  rw [h2, h3]

theorem score_depends_only_on_bmi_bp_witness :
    score (fun i => if i = 0 then 5 else 0) = score (fun _ => 0) :=
  score_depends_only_on_bmi_bp _ _ rfl rfl

/-- C4: for BinaryClassification, `num_classes` is 1 and the transform of
raw score `s` is `logistic(s) = 1 / (1 + exp(-s))`, the positive-class
probability; the derived negative-class probability is `1 -` that output,
the two lie strictly between 0 and 1, and they sum to 1.0 within 1e-6. -/
theorem binary_logistic_transform (k : Nat) (b : ℚ) (ts : List Tree)
    (raw : List ℚ) (s : ℝ) :
    (Ensemble.mk .binaryClassification k b ts).numClasses = 1 ∧
    transform .binaryClassification raw = [logistic ((raw.headD 0 : ℚ) : ℝ)] ∧
    logistic s = 1 / (1 + Real.exp (-s)) ∧
    0 < logistic s ∧ logistic s < 1 ∧
    |logistic s + (1 - logistic s) - 1| ≤ 1 / 1000000 := by
  have hexp : (0 : ℝ) < Real.exp (-s) := Real.exp_pos _
  have hden : (0 : ℝ) < 1 + Real.exp (-s) := by linarith
  refine ⟨rfl, rfl, rfl, ?_, ?_, ?_⟩
  · exact div_pos one_pos hden
  · rw [logistic, div_lt_one hden]
    linarith
  · have h0 : logistic s + (1 - logistic s) - 1 = 0 := by ring
    rw [h0, abs_zero]
    norm_num

/-- C5: the MulticlassClassification transform is the softmax in
max-subtraction form, and on every nonempty raw-score vector the result is
a valid probability distribution: entries in [0, 1] summing to 1 within
1e-6 (to 1 exactly, in real arithmetic, whatever the entries' magnitude). -/
theorem softmax_is_distribution (scores : List ℝ) (raw : List ℚ)
    (h : scores ≠ []) :
    transform .multiclassClassification raw =
      softmax (raw.map (fun q => (q : ℝ))) ∧
    (softmax scores).length = scores.length ∧
    (∀ i, i < scores.length → (softmax scores).getD i 0 =
      Real.exp (scores.getD i 0 - listMax scores) /
        (scores.map (fun u => Real.exp (u - listMax scores))).sum) ∧
    (∀ p ∈ softmax scores, 0 ≤ p ∧ p ≤ 1) ∧
    |(softmax scores).sum - 1| ≤ 1 / 1000000 := by
  have hmapne : scores.map (fun u => Real.exp (u - listMax scores)) ≠ [] := by
    simpa using h
  have hpos : ∀ w ∈ scores.map (fun u => Real.exp (u - listMax scores)),
      0 < w := by
    intro w hw
    obtain ⟨u, -, rfl⟩ := List.mem_map.mp hw
    exact Real.exp_pos _
  have hz : 0 < (scores.map (fun u => Real.exp (u - listMax scores))).sum :=
    List.sum_pos _ hpos hmapne
  refine ⟨rfl, by simp [softmax], ?_, ?_, ?_⟩
  · intro i hi
    unfold softmax
    rw [List.getD_eq_getElem?_getD, List.getElem?_map,
      List.getElem?_eq_getElem hi, List.getD_eq_getElem?_getD,
      List.getElem?_eq_getElem hi]
    rfl
  · intro p hp
    obtain ⟨u, hu, rfl⟩ := List.mem_map.mp (by simpa [softmax] using hp)
    refine ⟨div_nonneg (le_of_lt (Real.exp_pos _)) (le_of_lt hz), ?_⟩
    rw [div_le_one hz]
    exact List.single_le_sum (fun w hw => le_of_lt (hpos w hw)) _
      (List.mem_map_of_mem _ hu)
  · have hsum : (softmax scores).sum = 1 := by
      unfold softmax
      simp only [div_eq_mul_inv]
      rw [List.sum_map_mul_right]
      exact mul_inv_cancel₀ (ne_of_gt hz)
    rw [hsum]
    norm_num

theorem softmax_is_distribution_witness :
    transform .multiclassClassification ([] : List ℚ) =
      softmax (([] : List ℚ).map (fun q => (q : ℝ))) ∧
    (softmax [(0 : ℝ)]).length = [(0 : ℝ)].length ∧
    (∀ i, i < [(0 : ℝ)].length → (softmax [(0 : ℝ)]).getD i 0 =
      Real.exp ([(0 : ℝ)].getD i 0 - listMax [(0 : ℝ)]) /
        ([(0 : ℝ)].map (fun u => Real.exp (u - listMax [(0 : ℝ)]))).sum) ∧
    (∀ p ∈ softmax [(0 : ℝ)], 0 ≤ p ∧ p ≤ 1) ∧
    |(softmax [(0 : ℝ)]).sum - 1| ≤ 1 / 1000000 :=
  softmax_is_distribution [(0 : ℝ)] [] (by simp)

/-- C6: an ensemble constructed from boosting rounds that each contribute
`num_classes` trees has `rounds * num_classes` trees in total (so exactly
`rounds` trees for Regression and BinaryClassification, where
`num_classes = 1`), and during aggregation the tree at flattened index `i`
contributes its leaf value to class `i mod num_classes`. -/
theorem ensemble_tree_count_invariant (tt : TaskType) (k : Nat) (b : ℚ)
    (rounds : List (List Tree)) (x : Features) (vals : List ℚ) (c : Nat)
    (hg : ∀ g ∈ rounds, g.length = tt.numClassesOf k)
    (hc : c < tt.numClassesOf k)
    (hvals : evalAll (mkEnsemble tt k b rounds).trees x = .ok vals) :
    (mkEnsemble tt k b rounds).trees.length =
      rounds.length * tt.numClassesOf k ∧
    aggregate (mkEnsemble tt k b rounds) x =
      .ok (accumulate vals (tt.numClassesOf k) b) ∧
    (accumulate vals (tt.numClassesOf k) b).getD c 0 =
      b + ((vals.enum.filter (fun p => p.1 % tt.numClassesOf k == c)).map
        (fun p => p.2)).sum := by
  refine ⟨?_, ?_, accumulate_getD vals (by omega) b hc⟩
  · show rounds.flatten.length = _
    rw [List.length_flatten]
    have hrep : List.map List.length rounds =
        List.replicate (List.map List.length rounds).length
          (tt.numClassesOf k) := by
      apply List.eq_replicate_of_mem
      intro a ha
      obtain ⟨g, hgmem, rfl⟩ := List.mem_map.mp ha
      exact hg g hgmem
    rw [hrep, List.sum_replicate, List.length_map, smul_eq_mul]
  · unfold aggregate
    rw [hvals]
    rfl

theorem ensemble_tree_count_invariant_witness :
    (mkEnsemble .multiclassClassification 2 0
      [[[(0, .leaf 1)], [(0, .leaf 1)]], [[(0, .leaf 1)], [(0, .leaf 1)]]]).trees.length =
      ([[[(0, Node.leaf 1)], [(0, Node.leaf 1)]],
        [[(0, Node.leaf 1)], [(0, Node.leaf 1)]]] : List (List Tree)).length *
        TaskType.multiclassClassification.numClassesOf 2 ∧
    aggregate (mkEnsemble .multiclassClassification 2 0
      [[[(0, .leaf 1)], [(0, .leaf 1)]], [[(0, .leaf 1)], [(0, .leaf 1)]]]) [] =
      .ok (accumulate [1, 1, 1, 1] (TaskType.multiclassClassification.numClassesOf 2) 0) ∧
    (accumulate [1, 1, 1, 1] (TaskType.multiclassClassification.numClassesOf 2) 0).getD 1 0 =
      0 + ((([1, 1, 1, 1] : List ℚ).enum.filter
        (fun p => p.1 % TaskType.multiclassClassification.numClassesOf 2 == 1)).map
        (fun p => p.2)).sum :=
  ensemble_tree_count_invariant .multiclassClassification 2 0
    [[[(0, .leaf 1)], [(0, .leaf 1)]], [[(0, .leaf 1)], [(0, .leaf 1)]]] [] [1, 1, 1, 1] 1
    (by intro g hg; fin_cases hg <;> rfl)
    (by norm_num [TaskType.numClassesOf])
    (by norm_num [evalAll, evaluate, evalTrace, evalFrom, covers, refFeatures,
      findNode, nextChild, mkEnsemble, Except.map])

/-- The first dump tree is well-formed; the rank `i ↦ 10 - i` decreases
along every edge because the dump's child ids always exceed the parent's. -/
theorem demoTree0_wf : TreeWF demoTree0 := by
  refine ⟨by decide, by decide, ?_, by decide, fun i => 10 - i,
    by decide, by decide⟩
  unfold childrenResolve
  decide

/-- C7: on every well-formed tree (unique resolving ids, root 0, acyclic)
and covering feature vector, the evaluator terminates with a value, and the
ids it visits form exactly one root-to-leaf path: no id repeats and the
path takes at most `depth(tree)` steps. -/
theorem evaluator_terminates_on_path (t : Tree) (x : Features)
    (hWF : TreeWF t) (hcov : covers x t = true) :
    ∃ p v, evalTrace t x = .ok (p, v) ∧ evaluate t x = .ok v ∧
      IsEvalPath t x 0 p ∧ p.Nodup ∧ p.length ≤ depth t + 1 := by
  obtain ⟨p, v, hev, hpath, hnodup, hlen⟩ := evalTrace_ok hWF hcov
  refine ⟨p, v, hev, ?_, hpath, hnodup, hlen⟩
  unfold evaluate
  rw [if_pos hcov, hev]
  rfl

theorem evaluator_terminates_on_path_witness :
    ∃ p v, evalTrace demoTree0 demoX = .ok (p, v) ∧
      evaluate demoTree0 demoX = .ok v ∧
      IsEvalPath demoTree0 demoX 0 p ∧ p.Nodup ∧
      p.length ≤ depth demoTree0 + 1 :=
  evaluator_terminates_on_path demoTree0 demoX demoTree0_wf rfl

/-- C8: on a well-formed tree, a feature vector too short for some
referenced feature index makes `evaluate` fail with
`FeatureIndexOutOfRangeError` (no out-of-bounds read, no silent default),
while a vector covering every referenced index always evaluates to a
value. -/
theorem feature_coverage_contract (t : Tree) (x : Features)
    (hWF : TreeWF t) :
    ((∃ f ∈ refFeatures t, x.length ≤ f) →
      evaluate t x = .error .featureIndexOutOfRange) ∧
    (covers x t = true → ∃ v, evaluate t x = .ok v) := by
  constructor
  · rintro ⟨f, hf, hlen⟩
    have hnc : ¬ covers x t = true := by
      intro h
      unfold covers at h
      have := List.all_eq_true.mp h f hf
      simp at this
      omega
    unfold evaluate
    rw [if_neg hnc]
  · intro hcov
    obtain ⟨p, v, hev, -, -, -⟩ := evalTrace_ok hWF hcov
    refine ⟨v, ?_⟩
    unfold evaluate
    rw [if_pos hcov, hev]
    rfl

theorem feature_coverage_contract_witness :
    evaluate demoTree0 [some 1] = .error .featureIndexOutOfRange ∧
    ∃ v, evaluate demoTree0 demoX = .ok v :=
  ⟨(feature_coverage_contract demoTree0 [some 1] demoTree0_wf).1
      ⟨2, by decide, by decide⟩,
   (feature_coverage_contract demoTree0 demoX demoTree0_wf).2 rfl⟩

/-- C9: parsing a decoded line stream fails atomically: the result is
either `MalformedModelError` (the only error the parser emits — in
particular any tree block with an internal node referencing a child id not
defined in that block) or a complete list of trees in which every child
reference resolves; no partially built ensemble is ever returned. -/
theorem parse_atomic_malformed (ls : List DumpLine) :
    parse ls = .error .malformedModel ∨
      ∃ ts, parse ls = .ok ts ∧ ∀ t ∈ ts, treeResolves t = true := by
  unfold parse
  cases hp : parseGo [] none ls with
  | error e =>
    left
    rw [parseGo_error ls [] none e hp]
  | ok ts =>
    by_cases hall : ts.all treeResolves = true
    · right
      refine ⟨ts, ?_, List.all_eq_true.mp hall⟩
      show (if ts.all treeResolves = true then Except.ok ts
        else Except.error Err.malformedModel) = Except.ok ts
      rw [if_pos hall]
    · left
      show (if ts.all treeResolves = true then Except.ok ts
        else Except.error Err.malformedModel) = Except.error Err.malformedModel
      rw [if_neg hall]

theorem parse_atomic_malformed_witness :
    (parse demoBadLines = .error .malformedModel ∨
      ∃ ts, parse demoBadLines = .ok ts ∧ ∀ t ∈ ts, treeResolves t = true) ∧
    parse demoBadLines = .error .malformedModel :=
  ⟨parse_atomic_malformed demoBadLines,
   by norm_num [parse, parseGo, demoBadLines, treeResolves, nodeChildren, keys]⟩

end Gbt
